import Mathlib

/-!
Verification development for a streaming structured web crawler
(a FastAPI service in `src/app.py`).  The Python functions are shallowly
embedded as executable Lean definitions; stateful code (the shared
visited set, the wave loop) is embedded as explicit state passing.
Network fetches are abstracted as a `world` function supplied to the
model, mirroring the narrow interface the code uses (`requests.get`).
-/

/-! ## Python string primitives used by the source -/

/-- Whitespace characters recognised by Python `str.strip` / `str.split`
(ASCII subset; the source only manipulates ASCII-controlled markup). -/
def isWs (c : Char) : Bool :=
  c = ' ' || c = '\t' || c = '\n' || c = '\r' || c = '\x0b' || c = '\x0c'

/-- Python `str.strip()`: drop whitespace from both ends. -/
def pyStrip (s : String) : String :=
  String.mk (((s.toList.dropWhile isWs).reverse.dropWhile isWs).reverse)

/-- ASCII lower-casing of one character, as Python `str.lower` does on ASCII. -/
def asciiLower (c : Char) : Char :=
  if 'A' ≤ c && c ≤ 'Z' then Char.ofNat (c.toNat + 32) else c

/-- Python `str.lower()` (ASCII fragment). -/
def pyLower (s : String) : String := String.mk (s.toList.map asciiLower)

/-- Helper for `numWords`: counts maximal non-whitespace runs; the Bool
argument records whether we are inside a word. -/
def countWordsAux : List Char → Bool → Nat
  | [], _ => 0
  | c :: t, inW =>
    if isWs c then countWordsAux t false
    else if inW then countWordsAux t true
    else countWordsAux t true + 1

/-- Python `len(s.split())`: the number of whitespace-separated words. -/
def numWords (s : String) : Nat := countWordsAux s.toList false

/-- Python `s.startswith(p)`. -/
def strHasPre (s p : String) : Bool := p.toList.isPrefixOf s.toList

/-- Helper for `strContains`: substring search over char lists. -/
def containsSubAux (pat : List Char) : List Char → Bool
  | [] => pat.isEmpty
  | c :: t => pat.isPrefixOf (c :: t) || containsSubAux pat t

/-- Python `sub in s` on strings. -/
def strContains (s sub : String) : Bool := containsSubAux sub.toList s.toList

/-- Python `sep.join(xs)`. -/
def pyJoin (sep : String) : List String → String
  | [] => ""
  | [a] => a
  | a :: b :: t => a ++ sep ++ pyJoin sep (b :: t)

/-! ## URL parsing model (`urllib.parse`, the external library the code calls)

`urlparse`/`urljoin` are library collaborators of the source; they are
modelled here on the URL shapes this development exercises, following
the documented behaviour of `urllib.parse` (scheme detection, `//`
authority, netloc delimited by the first of `/`, `?`, `#`). -/

/-- Characters allowed in a URL scheme after the first (Python
`urllib.parse.scheme_chars`). -/
def schemeChar (c : Char) : Bool :=
  c.isAlpha || c.isDigit || c = '+' || c = '-' || c = '.'

/-- A valid scheme name is nonempty, starts with a letter, and uses
only scheme characters. -/
def validScheme : List Char → Bool
  | [] => false
  | c :: t => c.isAlpha && (c :: t).all schemeChar

/-- Split a char list at its first colon, returning the parts before
and after it, as Python `url.find(":")` does. -/
def findColon : List Char → Option (List Char × List Char)
  | [] => none
  | c :: t =>
    if c = ':' then some ([], t)
    else
      match findColon t with
      | none => none
      | some (p, r) => some (c :: p, r)

/-- Scheme splitting of `urllib.parse.urlsplit`: if the text before the
first colon is a valid scheme, strip it (lowercased); otherwise the URL
has no scheme. Returns `(scheme, rest)`. -/
def splitScheme (s : String) : String × String :=
  match findColon s.toList with
  | some (p, r) =>
    if validScheme p then (String.mk (p.map asciiLower), String.mk r) else ("", s)
  | none => ("", s)

/-- Characters that terminate the netloc component. -/
def netlocEnd (c : Char) : Bool := c = '/' || c = '?' || c = '#'

/-- The `netloc` component returned by `urllib.parse.urlparse`: present
only after a `//`, running to the first of `/`, `?`, `#`. -/
def pyNetloc (s : String) : String :=
  match (splitScheme s).2.toList with
  | '/' :: '/' :: t => String.mk (t.takeWhile (fun c => !netlocEnd c))
  | _ => ""

/-- The `path` component returned by `urllib.parse.urlparse`. -/
def pyUrlPath (s : String) : String :=
  let rest := (splitScheme s).2.toList
  let afterNl :=
    match rest with
    | '/' :: '/' :: t => t.dropWhile (fun c => !netlocEnd c)
    | r => r
  String.mk (afterNl.takeWhile (fun c => !(c = '?' || c = '#')))

/-- Embeds `is_internal` (src/app.py lines 24-29): compares
`urlparse(base).netloc` with `urlparse(link).netloc`.  The Python
`try/except` makes the function total; the model is total by
construction. -/
def is_internal (base link : String) : Bool := pyNetloc base == pyNetloc link

/-- Modelled from the spec: the "host component" of a URL, i.e. Python
`urlparse(u).hostname` — the netloc with any userinfo and port removed,
lowercased.  Used to state what the spec says `is_internal` compares. -/
def specHost (s : String) : String :=
  let n := (pyNetloc s).toList
  let afterAt := (n.reverse.takeWhile (fun c => c ≠ '@')).reverse
  String.mk ((afterAt.takeWhile (fun c => c ≠ ':')).map asciiLower)

/-- Keyword list of `is_login_page` (src/app.py line 34). -/
def loginKeywords : List String := ["login", "signin", "sign-in", "auth", "account"]

/-- Keyword list of `is_tracking` (src/app.py line 40). -/
def trackingKeywords : List String := ["utm_", "ref=", "tracking", "gclid", "fbclid"]

/-- Embeds `is_login_page` (src/app.py lines 32-35). -/
def is_login_page (u : String) : Bool :=
  loginKeywords.any (fun k => strContains (pyLower u) k)

/-- Embeds `is_tracking` (src/app.py lines 38-41). -/
def is_tracking (u : String) : Bool :=
  trackingKeywords.any (fun k => strContains (pyLower u) k)

/-- Base URL text up to (excluding) any fragment. -/
def dropFrag (s : String) : String :=
  String.mk (s.toList.takeWhile (fun c => c ≠ '#'))

/-- The base path directory: everything up to and including the last slash. -/
def upToLastSlash (l : List Char) : List Char :=
  (l.reverse.dropWhile (fun c => c ≠ '/')).reverse

/-- Models `urllib.parse.urljoin` (external library) on the URL shapes
occurring in this development: absolute URLs, protocol-relative and
root-relative references, fragments, and plain relative paths.
Dot-segment normalisation is not modelled (none of the theorems below
exercise it). -/
def pyUrljoin (base url : String) : String :=
  if url = "" then base
  else
    let bs := splitScheme base
    let us := splitScheme url
    if us.1 ≠ "" && us.1 ≠ bs.1 then url
    else
      let scheme := if us.1 ≠ "" then us.1 else bs.1
      let sp := if scheme ≠ "" then scheme ++ ":" else ""
      match us.2.toList with
      | '/' :: '/' :: t => sp ++ String.mk ('/' :: '/' :: t)
      | '/' :: t => sp ++ "//" ++ pyNetloc base ++ String.mk ('/' :: t)
      | '#' :: t => dropFrag base ++ String.mk ('#' :: t)
      | r => sp ++ "//" ++ pyNetloc base ++ String.mk (upToLastSlash (pyUrlPath base).toList) ++ String.mk r

/-! ## JSON values and the JSON-to-sections walk (`json_to_sections`) -/

mutual
/-- Parsed JSON values as Python `json.loads` produces them
(dicts keep insertion order, modelled as ordered key-value lists). -/
inductive PyJson : Type where
  | null : PyJson
  | bool (b : Bool) : PyJson
  | num (n : Int) : PyJson
  | str (s : String) : PyJson
  | arr (xs : PyArr) : PyJson
  | obj (kvs : PyObj) : PyJson
/-- JSON array contents. -/
inductive PyArr : Type where
  | nil : PyArr
  | cons (hd : PyJson) (tl : PyArr) : PyArr
/-- JSON object contents (ordered key-value pairs). -/
inductive PyObj : Type where
  | nil : PyObj
  | cons (k : String) (v : PyJson) (tl : PyObj) : PyObj
end

/-- One extracted `(heading, content)` section. -/
structure PageSection where
  heading : String
  content : String
deriving DecidableEq, Repr

/-- The `texts_by_key` dictionary of `json_to_sections`: an ordered map
from key-path to the list of texts collected under it. -/
abbrev TMap : Type := List (String × List String)

/-- The keys of a `TMap`, in insertion order. -/
def keysOf (m : TMap) : List String := m.map Prod.fst

/-- The text list stored under a key (empty when the key is absent),
reading the first matching entry as a Python dict lookup does. -/
def lookupT : TMap → String → List String
  | [], _ => []
  | e :: rest, k => if e.1 = k then e.2 else lookupT rest k

/-- Python `dict.setdefault(key, []).append(text)` on `TMap`. -/
def addToMap (m : TMap) (k t : String) : TMap :=
  if k ∈ keysOf m then
    m.map (fun e => if e.1 = k then (e.1, e.2 ++ [t]) else e)
  else m ++ [(k, [t])]

/-- The URL test of `add_text` (src/app.py line 109):
`text.lower().startswith(("http://", "https://"))`. -/
def urlish (t : String) : Bool :=
  strHasPre (pyLower t) "http://" || strHasPre (pyLower t) "https://"

/-- Embeds the inner `add_text` of `json_to_sections`
(src/app.py lines 104-114). -/
def add_text (pfx : String) (m : TMap) (path : String) (s : String) : TMap :=
  let t := pyStrip s
  if t = "" then m
  else if urlish t then m
  else if numWords t < 5 then m
  else addToMap m (if path ≠ "" then path else pfx) t

/-- `HEADING_KEYS` (src/app.py line 97). -/
def headingKeys : List String := ["title", "heading", "name"]

/-- `CONTENT_KEYS` (src/app.py lines 98-102). -/
def contentKeys : List String :=
  ["description", "overview", "summary", "details",
   "body", "content", "text", "objective", "objectives",
   "outcome", "outcomes", "eligibility", "syllabus"]

/-- Python truthiness of `last_key` (`not last_key` is true for `None`
and for the empty string). -/
def pyFalsy : Option String → Bool
  | none => true
  | some s => s == ""

/-- The key test of the string branch of `walk`
(src/app.py lines 127-128). -/
def keyOK (lastKey : Option String) : Bool :=
  let kl := pyLower (lastKey.getD "")
  contentKeys.contains kl || headingKeys.contains kl || pyFalsy lastKey

/-- Path extension of `walk` (src/app.py line 119):
`f"{path} / {k}" if path else k`. -/
def extendPath (path k : String) : String :=
  if path ≠ "" then path ++ " / " ++ k else k

mutual
/-- Embeds the recursive `walk` of `json_to_sections`
(src/app.py lines 116-129), threading the `texts_by_key` map. -/
def walkJ (pfx : String) : PyJson → String → Option String → TMap → TMap
  | .obj kvs, path, _, m => walkO pfx kvs path m
  | .arr xs, path, lk, m => walkA pfx xs path lk m
  | .str s, path, lk, m => if keyOK lk then add_text pfx m path s else m
  | .null, _, _, m => m
  | .bool _, _, _, m => m
  | .num _, _, _, m => m
/-- `walk` over a JSON list: each element keeps path and last key. -/
def walkA (pfx : String) : PyArr → String → Option String → TMap → TMap
  | .nil, _, _, m => m
  | .cons h t, path, lk, m => walkA pfx t path lk (walkJ pfx h path lk m)
/-- `walk` over a JSON dict: each value extends the path with its key. -/
def walkO (pfx : String) : PyObj → String → TMap → TMap
  | .nil, _, m => m
  | .cons k v t, path, m => walkO pfx t path (walkJ pfx v (extendPath path k) (some k) m)
end

/-- Embeds `json_to_sections` (src/app.py lines 88-139): run `walk`
from the heading prefix as initial path with no last key, then build
one section per collected key-path. -/
def json_to_sections (o : PyJson) (pfx : String) : List PageSection :=
  let m := walkJ pfx o pfx none []
  m.filterMap (fun e =>
    let c := pyStrip (pyJoin " " e.2)
    if c ≠ "" then some ⟨e.1, c⟩ else none)

/-! Spec-side companions for `json_to_sections`, used to state what the
walk keeps. -/

mutual
/-- Every string value of a JSON document together with the key-path
and originating key it is visited with (same traversal as `walk`). -/
def allStrJ : PyJson → String → Option String → List (String × Option String × String)
  | .str s, path, lk => [(path, lk, s)]
  | .obj kvs, path, _ => allStrO kvs path
  | .arr xs, path, lk => allStrA xs path lk
  | .null, _, _ => []
  | .bool _, _, _ => []
  | .num _, _, _ => []
/-- String values of a JSON array with their visiting context. -/
def allStrA : PyArr → String → Option String → List (String × Option String × String)
  | .nil, _, _ => []
  | .cons h t, path, lk => allStrJ h path lk ++ allStrA t path lk
/-- String values of a JSON object with their visiting context. -/
def allStrO : PyObj → String → List (String × Option String × String)
  | .nil, _ => []
  | .cons k v t, path => allStrJ v (extendPath path k) (some k) ++ allStrO t path
end

/-- The keep condition of the (amended) claim: a string is kept when its
stripped form has at least five words, does not look like a URL, and its
originating key passes `keyOK` (heading-like, content-like, or absent
and likewise empty). -/
def specKeep (lk : Option String) (s : String) : Bool :=
  decide (5 ≤ numWords (pyStrip s)) && !urlish (pyStrip s) && keyOK lk

/-- Modelled from the spec: the keep condition exactly as claim C7
states it — the content-like key set WITHOUT `overview`, and literally
"it has no parent key". -/
def specKeepClaim (lk : Option String) (s : String) : Bool :=
  let claimContentKeys : List String :=
    ["description", "summary", "details", "body", "content", "text",
     "objective", "objectives", "outcome", "outcomes", "eligibility", "syllabus"]
  let kl := pyLower (lk.getD "")
  decide (5 ≤ numWords (pyStrip s)) && !urlish (pyStrip s) &&
    (claimContentKeys.contains kl || headingKeys.contains kl || lk.isNone)

mutual
/-- The flat sequence of `(key, stripped text)` pairs that the `walk`
of `json_to_sections` hands to `texts_by_key`, in traversal order. -/
def keptJ (pfx : String) : PyJson → String → Option String → List (String × String)
  | .str s, path, lk =>
    if keyOK lk = true ∧ pyStrip s ≠ "" ∧ urlish (pyStrip s) = false ∧ 5 ≤ numWords (pyStrip s)
    then [((if path ≠ "" then path else pfx), pyStrip s)] else []
  | .obj kvs, path, _ => keptO pfx kvs path
  | .arr xs, path, lk => keptA pfx xs path lk
  | .null, _, _ => []
  | .bool _, _, _ => []
  | .num _, _, _ => []
/-- Kept pairs of a JSON array. -/
def keptA (pfx : String) : PyArr → String → Option String → List (String × String)
  | .nil, _, _ => []
  | .cons h t, path, lk => keptJ pfx h path lk ++ keptA pfx t path lk
/-- Kept pairs of a JSON object. -/
def keptO (pfx : String) : PyObj → String → List (String × String)
  | .nil, _ => []
  | .cons k v t, path => keptJ pfx v (extendPath path k) (some k) ++ keptO pfx t path
end

/-- Fold a flat pair sequence into a `TMap` (how the dictionary of
`json_to_sections` relates to the sequence of `add_text` insertions). -/
def groupAcc (m : TMap) (ps : List (String × String)) : TMap :=
  ps.foldl (fun mm p => addToMap mm p.1 p.2) m

/-- First occurrence order of a key list, skipping keys already seen. -/
def firstOccurAux (seen : List String) : List String → List String
  | [] => []
  | k :: t => if k ∈ seen then firstOccurAux seen t
              else k :: firstOccurAux (seen ++ [k]) t

/-- Texts a flat pair sequence holds for a given key, in order. -/
def textsFor (ps : List (String × String)) (k : String) : List String :=
  (ps.filter (fun p => p.1 == k)).map Prod.snd

/-! ## Section assembly and clean text (`sections_to_clean_text`) -/

/-- Embeds line 387 of `crawl_single`:
`all_sections = html_sections + json_script_sections + api_sections`. -/
def all_sections_of (h s a : List PageSection) : List PageSection := h ++ s ++ a

/-- Embeds `sections_to_clean_text` (src/app.py lines 274-284): build
the chunk list (stripped heading when nonempty, then stripped content,
for each section with nonempty stripped content) and join with blank
lines. -/
def sections_to_clean_text (secs : List PageSection) : String :=
  pyJoin "\n\n"
    (secs.foldl (fun acc sec =>
      let h := pyStrip sec.heading
      let c := pyStrip sec.content
      if c ≠ "" then (if h ≠ "" then acc ++ [h] else acc) ++ [c] else acc) [])

/-- Modelled from the spec: the chunk list claim C9 describes — for
each section with non-empty content, its heading (when non-empty)
followed by its content, both taken verbatim. -/
def specCleanChunks : List PageSection → List String
  | [] => []
  | sec :: t =>
    (if sec.content ≠ "" then
      (if sec.heading ≠ "" then [sec.heading] else []) ++ [sec.content]
     else []) ++ specCleanChunks t

/-- The chunk list the code actually produces (amended claim C9):
for each section whose stripped content is nonempty, its stripped
heading (when nonempty after stripping) followed by its stripped
content. -/
def specCleanChunksStrip : List PageSection → List String
  | [] => []
  | sec :: t =>
    (if pyStrip sec.content ≠ "" then
      (if pyStrip sec.heading ≠ "" then [pyStrip sec.heading] else [])
        ++ [pyStrip sec.content]
     else []) ++ specCleanChunksStrip t

/-! ## API fetching model (`fetch_api_json_sections`) -/

/-- `MAX_API_CALLS_PER_PAGE` (src/app.py line 16). -/
def MAX_API_CALLS_PER_PAGE : Nat := 5

/-- One HTTP response as `fetch_api_json_sections` inspects it:
the Content-Type header, the body text, and the result of
`resp.json()` (`none` when that call raises). -/
structure ApiResp where
  contentType : String
  body : String
  json : Option PyJson

/-- Outcome of `requests.get` for an API URL: `none` models a raised
transport exception (timeout, connection error). -/
abbrev ApiWorld : Type := String → Option ApiResp

/-- The heading prefix `f"API {urlparse(url).path or '/'}"`
(src/app.py line 265). -/
def apiHeading (u : String) : String :=
  "API " ++ (let p := pyUrlPath u; if p ≠ "" then p else "/")

/-- Embeds `fetch_api_json_sections` (src/app.py lines 245-271).
Returns the collected sections together with the number of GET
requests issued.  Note the loop structure of the source: the budget
check `count >= MAX_API_CALLS_PER_PAGE` precedes each GET, but `count`
is incremented only after a response has passed the JSON sniff and
parsed successfully — failed or non-JSON responses do not advance it. -/
def fetch_api_json_sections (w : ApiWorld) : List String → Nat → List PageSection × Nat
  | [], _ => ([], 0)
  | u :: rest, count =>
    if MAX_API_CALLS_PER_PAGE ≤ count then ([], 0)
    else
      match w u with
      | none =>
        let r := fetch_api_json_sections w rest count
        (r.1, r.2 + 1)
      | some resp =>
        let ct := pyLower resp.contentType
        let t := pyStrip resp.body
        if ¬ strContains ct "json" ∧ ¬ (strHasPre t "\x7b" ∨ strHasPre t "[") then
          let r := fetch_api_json_sections w rest count
          (r.1, r.2 + 1)
        else
          match resp.json with
          | none =>
            let r := fetch_api_json_sections w rest count
            (r.1, r.2 + 1)
          | some d =>
            let secs := json_to_sections d (apiHeading u)
            let r := fetch_api_json_sections w rest (count + 1)
            (secs ++ r.1, r.2 + 1)

/-- A world where every API URL answers with a non-JSON page
(Content-Type `text/html`, body that is not brace- or
bracket-initial, and `resp.json()` raising). -/
def apiCexWorld : ApiWorld := fun _ => some ⟨"text/html", "nope", none⟩

/-- Six distinct API URLs discovered on one page. -/
def apiCexUrls : List String :=
  ["http://h/api/1", "http://h/api/2", "http://h/api/3",
   "http://h/api/4", "http://h/api/5", "http://h/api/6"]

/-! ## Crawl orchestration model (`crawl_single` and the wave loop)

The fetch+parse of one page is abstracted as a `world` function giving,
for each URL, either `none` (any exception inside the `try` of
`crawl_single`: transport failure, non-2xx status, parse error) or the
list of raw `href` values of the anchor tags bs4 reports on the final
(mutated) soup.  The lock of the source serialises all visited-set
claims; the model correspondingly threads the visited list through the
tasks of a wave — every interleaving of the atomic claims corresponds
to some queue order, and all theorems below quantify over arbitrary
queues. -/

abbrev World : Type := String → Option (List String)

/-- An emitted page record, projected to the fields the claims speak
about: the `url` field of `page_data` plus (as instrumentation) the
frontier depth of the task that produced it. -/
structure Emit where
  url : String
  depth : Nat
deriving DecidableEq, Repr

/-- Embeds `crawl_single` (src/app.py lines 349-413): the depth gate,
the advisory filters, the atomic claim (membership, capacity, insert),
then fetch and link folding.  Returns the optional result (emitted
record and discovered `(url, depth+1)` links) and the updated visited
list.  The insert happens before the fetch, so a fetch failure leaves
the URL claimed. -/
def crawl_single (w : World) (u : String) (d : Nat) (b : String)
    (v : List String) (md mp : Nat) :
    Option (Emit × List (String × Nat)) × List String :=
  if md < d then (none, v)
  else if is_login_page u || is_tracking u then (none, v)
  else if u ∈ v ∨ mp ≤ v.length then (none, v)
  else
    let v2 := v ++ [u]
    match w u with
    | none => (none, v2)
    | some hrefs =>
      (some ({ url := u, depth := d },
        ((hrefs.map (fun h => pyUrljoin u h)).filter
          (fun nu => is_internal b nu)).map (fun nu => (nu, d + 1))), v2)

/-- Embeds the future-consumption loop of one wave
(src/app.py lines 432-450): the tasks of the wave are resolved in
submission order (`for fut in futures: fut.result()`), each successful
result is yielded and its links appended to the next queue.  Returns
`(emitted records, next queue, final visited)`. -/
def processWave (w : World) (b : String) (md mp : Nat) :
    List (String × Nat) → List String →
    List Emit × List (String × Nat) × List String
  | [], v => ([], [], v)
  | (u, d) :: rest, v =>
    let r := crawl_single w u d b v md mp
    let pr := processWave w b md mp rest r.2
    match r.1 with
    | none => pr
    | some (e, links) => (e :: pr.1, links ++ pr.2.1, pr.2.2)

/-- The per-task outcomes of one wave in submission order (one entry
per submitted future, `none` for tasks that returned no result). -/
def waveOutcomes (w : World) (b : String) (md mp : Nat) :
    List (String × Nat) → List String → List (Option Emit)
  | [], _ => []
  | (u, d) :: rest, v =>
    (crawl_single w u d b v md mp).1.map Prod.fst ::
      waveOutcomes w b md mp rest (crawl_single w u d b v md mp).2

/-- Modelled from the spec: the emission order claim C3 describes —
results yielded in the order tasks complete, given the completion
order as the list of task indices sorted by completion time. -/
def emitsInCompletionOrder (outcomes : List (Option Emit)) (ord : List Nat) : List Emit :=
  ord.filterMap (fun i => outcomes.getD i none)

/-- Embeds the wave loop of the `stream` generator
(src/app.py lines 425-452): while the queue is nonempty and the page
budget is not exhausted, process one wave and continue on the queue it
produced.  The fuel argument bounds the number of waves; every theorem
below holds for all fuel values.  Returns the emitted records and the
final visited list. -/
def crawlStream (w : World) (b : String) (md mp : Nat) :
    Nat → List (String × Nat) → List String → List Emit × List String
  | 0, _, v => ([], v)
  | fuel + 1, q, v =>
    if q = [] ∨ mp ≤ v.length then ([], v)
    else
      let pr := processWave w b md mp q v
      let rest := crawlStream w b md mp fuel pr.2.1 pr.2.2
      (pr.1 ++ rest.1, rest.2)

/-- Embeds `crawl_endpoint` (src/app.py lines 419-454): seed the queue
with `(url, 0)`, an empty visited set, and stream the emitted records.
There is no seed validation and the generator body cannot raise (every
per-page exception is caught inside `crawl_single`), so the model is a
total function into the list of emitted records. -/
def crawl_endpoint (w : World) (seed : String) (mp md fuel : Nat) : List Emit :=
  (crawlStream w seed md mp fuel [(seed, 0)] []).1

/-! ## HTML tree model (BeautifulSoup collaborator) for the static
section builder and the link extraction steps of `crawl_single` -/

mutual
/-- A node of the parsed HTML tree: an element with tag name,
attributes and children, or a text node. -/
inductive HNode : Type where
  | elem (name : String) (attrs : List (String × String)) (children : HForest) : HNode
  | textNode (s : String) : HNode
/-- A sequence of sibling nodes. -/
inductive HForest : Type where
  | nil : HForest
  | cons (hd : HNode) (tl : HForest) : HForest
end

/-- Attribute lookup on an element. -/
def getAttr (attrs : List (String × String)) (k : String) : Option String :=
  (attrs.find? (fun p => p.1 == k)).map Prod.snd

mutual
/-- All text-node strings below a node, in document order
(basis of bs4 `get_text`). -/
def textsN : HNode → List String
  | .elem _ _ c => textsF c
  | .textNode s => [s]
/-- All text-node strings below a forest, in document order. -/
def textsF : HForest → List String
  | .nil => []
  | .cons h t => textsN h ++ textsF t
end

/-- bs4 `get_text(" ", strip=True)` over an element body: each text
string stripped, empties dropped, joined with single spaces. -/
def getTextF (c : HForest) : String :=
  pyJoin " " (((textsF c).map pyStrip).filter (fun s => s ≠ ""))

mutual
/-- bs4 `find_all("a", href=True)` paired with each anchor's
`get_text(" ", strip=True)`: `(href, text)` in document order,
including anchors nested below other anchors. -/
def anchorsN : HNode → List (String × String)
  | .elem n a c =>
    (match (n == "a" : Bool), getAttr a "href" with
     | true, some h => [(h, getTextF c)]
     | _, _ => []) ++ anchorsF c
  | .textNode _ => []
/-- Anchors of a forest in document order. -/
def anchorsF : HForest → List (String × String)
  | .nil => []
  | .cons h t => anchorsN h ++ anchorsF t
end

/-- The noise tag list of `build_structured_content_from_html`
(src/app.py line 295). -/
def noiseTags : List String :=
  ["script", "style", "noscript", "header", "footer", "nav", "form", "aside"]

mutual
/-- Decomposition of every element whose name is in `names`
(the `t.decompose()` loop removes each matching element with its whole
subtree; looping over tag names one by one yields the same tree as
this single top-down prune). -/
def pruneN (names : List String) : HNode → Option HNode
  | .elem n a c => if names.contains n then none else some (.elem n a (pruneF names c))
  | .textNode s => some (.textNode s)
/-- Prune a forest. -/
def pruneF (names : List String) : HForest → HForest
  | .nil => .nil
  | .cons h t =>
    match pruneN names h with
    | none => pruneF names t
    | some h2 => .cons h2 (pruneF names t)
end

mutual
/-- First element with the given tag name, in document order. -/
def findElemN (name : String) : HNode → Option (List (String × String) × HForest)
  | .elem n a c =>
    if n == name then some (a, c) else findElemF name c
  | .textNode _ => none
/-- First element with the given tag name in a forest. -/
def findElemF (name : String) : HForest → Option (List (String × String) × HForest)
  | .nil => none
  | .cons h t =>
    match findElemN name h with
    | some r => some r
    | none => findElemF name t
end

/-- bs4 `.string` of an element: the text of its single text-node
child, when the element has exactly one child and it is text. -/
def soupString : HForest → Option String
  | .cons (.textNode s) .nil => some s
  | _ => none

/-- The document title (src/app.py lines 299-301): `soup.title.string`
stripped, empty when absent. -/
def titleOf (doc : HForest) : String :=
  match findElemF "title" doc with
  | some (_, c) =>
    match soupString c with
    | some s => pyStrip s
    | none => ""
  | none => ""

mutual
/-- The element nodes below a node, in document order (bs4
`descendants`, with text nodes already skipped by the
`hasattr(elem, "name")` test of the source). -/
def elemsN : HNode → List (String × List (String × String) × HForest)
  | .elem n a c => (n, a, c) :: elemsF c
  | .textNode _ => []
/-- Element nodes of a forest in document order. -/
def elemsF : HForest → List (String × List (String × String) × HForest)
  | .nil => []
  | .cons h t => elemsN h ++ elemsF t
end

/-- Flush of the section accumulator (src/app.py lines 317-324 and
338-342): join the collected paragraph texts, and emit a section under
the stripped current heading when the joined content is nonempty. -/
def flushSection (heading : String) (parts : List String) : List PageSection :=
  match parts with
  | [] => []
  | ps =>
    let c := pyStrip (pyJoin " " ps)
    if c ≠ "" then [⟨pyStrip heading, c⟩] else []

/-- Embeds the descendant walk of `build_structured_content_from_html`
(src/app.py lines 305-342): headings `h1`-`h3` close the current
section and (when their text is nonempty) set the heading; paragraphs
with at least five words not seen before on the page accumulate. -/
def sectionWalk : List (String × List (String × String) × HForest) →
    String → List String → List String → List PageSection
  | [], heading, parts, _ => flushSection heading parts
  | (n, _, c) :: rest, heading, parts, seen =>
    if (["h1", "h2", "h3"] : List String).contains n then
      let flushed := flushSection heading parts
      let ht := getTextF c
      let newHeading := if ht ≠ "" then ht else heading
      flushed ++ sectionWalk rest newHeading [] seen
    else if n == "p" then
      let t := getTextF c
      if t ≠ "" ∧ 5 ≤ numWords t ∧ t ∉ seen then
        sectionWalk rest heading (parts ++ [t]) (seen ++ [t])
      else sectionWalk rest heading parts seen
    else sectionWalk rest heading parts seen

/-- Embeds `build_structured_content_from_html`
(src/app.py lines 287-344).  The decompose loop mutates the soup in
place; the model returns the pruned tree as third component so callers
can thread the mutation.  Title and body lookup happen after the
removal, the walk starts under the default heading `"Page"`. -/
def build_structured_content_from_html (doc : HForest) :
    String × List PageSection × HForest :=
  let pruned := pruneF noiseTags doc
  let title := titleOf pruned
  let bodyF :=
    match findElemF "body" pruned with
    | some (_, c) => c
    | none => pruned
  (title, sectionWalk (elemsF bodyF) "Page" [] [], pruned)

/-- Embeds `extract_links` (src/app.py lines 69-85): anchors with a
stripped nonempty href that is not fragment-only, `javascript:` or
`mailto:`, resolved against the page URL, paired with the anchor
text.  Runs on the soup it is handed. -/
def extract_links (doc : HForest) (base : String) : List (String × String) :=
  (anchorsF doc).filterMap (fun p =>
    let href := pyStrip p.1
    if href = "" then none
    else if strHasPre href "#" || strHasPre (pyLower href) "javascript:"
         || strHasPre (pyLower href) "mailto:" then none
    else some (p.2, pyUrljoin base href))

/-- The frontier-link loop of `crawl_single` (src/app.py lines
406-411) applied to a soup: every anchor href (no stripping, no
fragment filtering) resolved against the page URL and kept when
same-origin with the crawl base. -/
def nextUrlsOf (doc : HForest) (url baseUrl : String) : List String :=
  (anchorsF doc).filterMap (fun p =>
    let nu := pyUrljoin url p.1
    if is_internal baseUrl nu then some nu else none)

/-- Output of the per-page extraction slice of `crawl_single` that
reads the parsed tree. -/
structure PageOut where
  links : List (String × String)
  title : String
  htmlSections : List PageSection
  nextUrls : List String
deriving DecidableEq, Repr

/-- Embeds the tree-reading steps of `crawl_single` in source order
(src/app.py lines 368-413): `extract_links` at step 2 on the fetched
soup, `build_structured_content_from_html` at step 5 (which mutates
that same soup), and the frontier-link loop after it on the mutated
soup.  Steps 1, 3 and 4 (media, script JSON, API discovery) also run
before the mutation and are not tree-returning, so they are omitted
here.  There is no working copy: the pruned tree is the one the
frontier links are read from. -/
def page_pipeline (doc : HForest) (url baseUrl : String) : PageOut :=
  let links := extract_links doc url
  let bs := build_structured_content_from_html doc
  { links := links
    title := bs.1
    htmlSections := bs.2.1
    nextUrls := nextUrlsOf bs.2.2 url baseUrl }

/-- Modelled from the spec: the frontier links claim C8 describes —
derived from ALL anchor tags of the page as fetched, including those
inside the removed elements. -/
def specNextUrls (doc : HForest) (url baseUrl : String) : List String :=
  nextUrlsOf doc url baseUrl

/-- A concrete page: a `nav` element containing an internal anchor,
followed by an internal anchor outside it. -/
def cexDoc : HForest :=
  .cons (.elem "nav" [] (.cons (.elem "a" [("href", "http://h/x")] .nil) .nil))
    (.cons (.elem "a" [("href", "http://h/y")] .nil) .nil)

/-! ## Concrete instances used by witnesses and counterexamples -/

/-- A world where every page fetch succeeds with no anchors. -/
def exWorld : World := fun _ => some []

/-- A world where every page fetch raises inside the `try` of
`crawl_single`. -/
def failWorld : World := fun _ => none

/-- A world for the duplicate-URL witness: the two fragment variants
both fetch successfully and link nowhere. -/
def dupWorld : World := fun _ => some []

/-- A JSON document whose only string sits under the key `overview`. -/
def cexJson : PyJson :=
  .obj (.cons "overview" (.str "alpha beta gamma delta epsilon") .nil)

/-- A JSON document with one content-like key. -/
def exJson : PyJson :=
  .obj (.cons "description" (.str "one two three four five") .nil)

/-! ## Theorems -/

/-! ### URL classifier (claim C6) -/

/-- A valid scheme contains no colon (colons are not scheme characters). -/
theorem validScheme_no_colon {l : List Char} (h : validScheme l = true) : ':' ∉ l := by
  intro hm
  cases l with
  | nil => cases hm
  | cons c t =>
    simp only [validScheme, Bool.and_eq_true] at h
    have h2 := List.all_eq_true.mp h.2 ':' hm
    exact absurd h2 (by decide)

/-- Splitting at the first colon of a colon-free text followed by a
colon finds exactly that colon. -/
theorem findColon_append (r : List Char) :
    ∀ (l : List Char), ':' ∉ l → findColon (l ++ ':' :: r) = some (l, r) := by
  intro l
  induction l with
  | nil => intro _; simp [findColon]
  | cons c t ih =>
    intro h
    have hc : ¬ c = ':' := fun he => h (he ▸ List.mem_cons_self c t)
    have ih2 := ih (fun hm => h (List.mem_cons_of_mem c hm))
    simp [findColon, hc, ih2]

/-- For a URL assembled from a valid scheme and an authority-bearing
tail, the netloc is the tail up to the first of slash, question mark or
hash — independent of the scheme. -/
theorem pyNetloc_concat (s t : String) (h : validScheme s.toList = true) :
    pyNetloc (s ++ "://" ++ t) =
      String.mk (t.toList.takeWhile (fun c => !netlocEnd c)) := by
  have hdata : (s ++ "://" ++ t).toList = s.toList ++ ':' :: '/' :: '/' :: t.toList := by
    show (s ++ "://" ++ t).data = s.data ++ ':' :: '/' :: '/' :: t.data
    rw [String.data_append, String.data_append, List.append_assoc]
    rfl
  unfold pyNetloc splitScheme
  rw [hdata, findColon_append _ _ (validScheme_no_colon h)]
  have h2 : validScheme s.data = true := h
  simp [h2]

/-- Claim C6, amended: `is_internal` is true exactly when the two
URLs' full netloc components (host together with any port or userinfo)
are equal as strings; the scheme is ignored (for well-formed
`scheme://authority...` URLs the comparison depends only on the part
after `://`); the function is total, and URL text without a parseable
authority gets the empty netloc. -/
theorem claim_C6 :
    (∀ b l, is_internal b l = true ↔ pyNetloc b = pyNetloc l)
    ∧ (∀ s t, validScheme s.toList = true →
        pyNetloc (s ++ "://" ++ t) =
          String.mk (t.toList.takeWhile (fun c => !netlocEnd c)))
    ∧ (∀ s s2 t t2, validScheme s.toList = true → validScheme s2.toList = true →
        is_internal (s ++ "://" ++ t) (s2 ++ "://" ++ t2) =
          is_internal ("http://" ++ t) ("http://" ++ t2)) := by
  refine ⟨fun b l => by simp [is_internal], pyNetloc_concat, ?_⟩
  intro s s2 t t2 hs hs2
  have hh : validScheme ("http".toList) = true := by decide
  simp only [is_internal]
  rw [pyNetloc_concat s t hs, pyNetloc_concat s2 t2 hs2]
  have e1 : "http://" ++ t = "http" ++ "://" ++ t := rfl
  have e2 : "http://" ++ t2 = "http" ++ "://" ++ t2 := rfl
  rw [e1, e2, pyNetloc_concat "http" t hh, pyNetloc_concat "http" t2 hh]

/-- Witness for claim C6 at concrete URLs: two https/http URLs with the
same authority compare equal to their http counterparts. -/
theorem claim_C6_witness :
    validScheme ("https".toList) = true
    ∧ validScheme ("ftp".toList) = true
    ∧ is_internal ("https" ++ "://" ++ "a.com/x") ("ftp" ++ "://" ++ "a.com/y") =
        is_internal ("http://" ++ "a.com/x") ("http://" ++ "a.com/y") :=
  ⟨by decide, by decide,
    (claim_C6.2.2 "https" "ftp" "a.com/x" "a.com/y" (by decide) (by decide))⟩

/-- Counterexample to claim C6 as stated: the hosts of
`http://a.com` and `http://a.com:8080` match exactly and only the port
differs, yet `is_internal` returns false (netloc comparison includes
the port); and two strings with no parseable URL structure at all
compare as internal (both netlocs empty), not as non-internal. -/
theorem claim_C6_cex :
    specHost "http://a.com" = specHost "http://a.com:8080"
    ∧ is_internal "http://a.com" "http://a.com:8080" = false
    ∧ is_internal "nota url" "other junk" = true := by decide

/-! ### API call budget (claim C5) -/

/-- Claim C5 fails on the code: with six discovered API URLs all
answering non-JSON, six GET requests are issued — the budget
`MAX_API_CALLS_PER_PAGE = 5` only counts responses that parsed as
JSON, so failing or non-JSON responses do not consume it and the
number of secondary requests is not capped at 5. -/
theorem claim_C5_thm :
    (fetch_api_json_sections apiCexWorld apiCexUrls 0).2 = 6
    ∧ MAX_API_CALLS_PER_PAGE < 6 := by decide

/-! ### Section assembly and clean text (claim C9) -/

/-- The chunk accumulation loop of `sections_to_clean_text` appends
exactly the stripped chunks, for arbitrary sections. -/
theorem clean_chunks_foldl (secs : List PageSection) :
    ∀ acc : List String,
      secs.foldl (fun acc2 sec =>
        if pyStrip sec.content ≠ "" then
          (if pyStrip sec.heading ≠ "" then acc2 ++ [pyStrip sec.heading] else acc2)
            ++ [pyStrip sec.content]
        else acc2) acc
      = acc ++ specCleanChunksStrip secs := by
  induction secs with
  | nil => intro acc; simp [specCleanChunksStrip]
  | cons sec t ih =>
    intro acc
    simp only [List.foldl_cons, specCleanChunksStrip]
    rw [ih]
    by_cases hc0 : pyStrip sec.content = "" <;> by_cases hh0 : pyStrip sec.heading = "" <;>
      simp [hc0, hh0, List.append_assoc]

/-- Claim C9, amended: the assembled section list is the concatenation
HTML sections, then script sections, then API sections, and the clean
text is the blank-line join that, for each section whose STRIPPED
content is nonempty, contains the section's STRIPPED heading (when
nonempty after stripping) followed by its stripped content — the loop
strips both fields before testing and emitting them, so a section
field carrying surrounding whitespace (e.g. the key-path heading
produced by an empty JSON key) appears stripped in the clean text,
not verbatim as the original claim stated. -/
theorem claim_C9 (h s a : List PageSection) :
    all_sections_of h s a = h ++ s ++ a
    ∧ sections_to_clean_text (all_sections_of h s a) =
        pyJoin "\n\n" (specCleanChunksStrip (h ++ s ++ a)) := by
  refine ⟨rfl, ?_⟩
  unfold sections_to_clean_text
  rw [clean_chunks_foldl]
  rfl

/-- Counterexample to claim C9 as stated: the script miner applied to
a JSON-LD object with an empty key — a reachable extractor output —
yields the heading `JSON-LD / ` with a trailing space; on that section
the code's clean text contains the stripped heading, while the
verbatim blank-line join the claim describes keeps the trailing space,
so the two strings differ. -/
theorem claim_C9_cex :
    json_to_sections (.obj (.cons "" (.str "alpha beta gamma delta epsilon") .nil)) "JSON-LD"
      = [⟨"JSON-LD / ", "alpha beta gamma delta epsilon"⟩]
    ∧ sections_to_clean_text [⟨"JSON-LD / ", "alpha beta gamma delta epsilon"⟩]
      = "JSON-LD /\n\nalpha beta gamma delta epsilon"
    ∧ pyJoin "\n\n" (specCleanChunks [⟨"JSON-LD / ", "alpha beta gamma delta epsilon"⟩])
      = "JSON-LD / \n\nalpha beta gamma delta epsilon"
    ∧ sections_to_clean_text [⟨"JSON-LD / ", "alpha beta gamma delta epsilon"⟩]
      ≠ pyJoin "\n\n" (specCleanChunks [⟨"JSON-LD / ", "alpha beta gamma delta epsilon"⟩]) := by
  decide

/-! ### Wave emission order (claim C3) -/

/-- Claim C3, amended: within one wave the records are yielded in the
order the tasks were submitted — the loop resolves each future with
`fut.result()` in list order — one outcome slot per submitted task,
with the non-results dropped; completion timing plays no role. -/
theorem claim_C3 (w : World) (b : String) (md mp : Nat)
    (q : List (String × Nat)) :
    ∀ v : List String,
      (processWave w b md mp q v).1 = (waveOutcomes w b md mp q v).filterMap id
      ∧ (waveOutcomes w b md mp q v).length = q.length := by
  induction q with
  | nil => intro v; simp [processWave, waveOutcomes]
  | cons e rest ih =>
    intro v
    obtain ⟨u, d⟩ := e
    simp only [processWave, waveOutcomes]
    rcases hr : (crawl_single w u d b v md mp).1 with _ | ⟨em, links⟩ <;>
      simp [hr, (ih _).1, (ih _).2]

/-- Counterexample to claim C3 as stated: a two-task wave where the
second task completes first.  The code still yields the first-submitted
record first (futures are resolved in submission order), while the
completion-order delivery the claim describes would yield the reversed
list; the two orders differ. -/
theorem claim_C3_cex :
    (processWave exWorld "http://h/p1" 2 10 [("http://h/p1", 0), ("http://h/p2", 0)] []).1
      = [⟨"http://h/p1", 0⟩, ⟨"http://h/p2", 0⟩]
    ∧ emitsInCompletionOrder
        (waveOutcomes exWorld "http://h/p1" 2 10 [("http://h/p1", 0), ("http://h/p2", 0)] [])
        [1, 0]
      = [⟨"http://h/p2", 0⟩, ⟨"http://h/p1", 0⟩]
    ∧ ([⟨"http://h/p1", 0⟩, ⟨"http://h/p2", 0⟩] : List Emit)
      ≠ [⟨"http://h/p2", 0⟩, ⟨"http://h/p1", 0⟩] := by decide

/-! ### Error handling (claim C4) -/

/-- Claim C4, amended: the endpoint performs no seed validation and
`crawl_single` swallows every fetch or parse exception, so a URL whose
fetch raises — the seed included — produces no result, and the rest of
its wave is processed exactly as if the failing task had merely
contributed nothing (its claim on the visited set persists). -/
theorem claim_C4 (w : World) (u : String) (d : Nat) (b : String)
    (v : List String) (md mp : Nat) (rest : List (String × Nat))
    (hw : w u = none) :
    (crawl_single w u d b v md mp).1 = none
    ∧ processWave w b md mp ((u, d) :: rest) v
        = processWave w b md mp rest (crawl_single w u d b v md mp).2 := by
  have h1 : (crawl_single w u d b v md mp).1 = none := by
    unfold crawl_single
    split
    · rfl
    split
    · rfl
    split
    · rfl
    · simp [hw]
  refine ⟨h1, ?_⟩
  simp only [processWave]
  rw [h1]

/-- Witness for claim C4: a world where every fetch raises, applied to
a concrete queue. -/
theorem claim_C4_witness :
    failWorld ":::" = none
    ∧ (crawl_single failWorld ":::" 0 ":::" [] 2 10).1 = none
    ∧ processWave failWorld ":::" 2 10 [((":::" : String), 0)] []
        = processWave failWorld ":::" 2 10 [] (crawl_single failWorld ":::" 0 ":::" [] 2 10).2 :=
  ⟨rfl, (claim_C4 failWorld ":::" 0 ":::" [] 2 10 [] rfl).1,
    (claim_C4 failWorld ":::" 0 ":::" [] 2 10 [] rfl).2⟩

/-- Counterexample to claim C4 as stated: with a seed URL whose fetch
raises (any unparseable URL does), the call does not fail and surfaces
no error before crawling starts — crawling does start (the seed is
claimed into the visited set) and the call returns the ordinary empty
stream. -/
theorem claim_C4_cex :
    crawlStream failWorld ":::" 2 10 3 [((":::" : String), 0)] [] = ([], [":::"]) := by
  decide

/-! ### Crawl invariants (claims C1, C2, C10) -/

/-- A claim attempted against a full visited set returns no result and
leaves the set unchanged. -/
theorem crawl_single_cap (w : World) (u : String) (d : Nat) (b : String)
    (v : List String) (md mp : Nat) (h : mp ≤ v.length) :
    crawl_single w u d b v md mp = (none, v) := by
  unfold crawl_single
  split
  · rfl
  split
  · rfl
  rw [if_pos (Or.inr h)]

/-- A frontier entry beyond the depth bound returns no result, without
touching the visited set or the world. -/
theorem crawl_single_deep (w : World) (u : String) (d : Nat) (b : String)
    (v : List String) (md mp : Nat) (h : md < d) :
    crawl_single w u d b v md mp = (none, v) := by
  unfold crawl_single
  rw [if_pos h]

/-- One claim preserves the page-budget bound on the visited set. -/
theorem crawl_single_vis_le (w : World) (u : String) (d : Nat) (b : String)
    (v : List String) (md mp : Nat) (h : v.length ≤ mp) :
    (crawl_single w u d b v md mp).2.length ≤ mp := by
  unfold crawl_single
  split
  · exact h
  split
  · exact h
  split
  · exact h
  rename_i hcond
  push_neg at hcond
  cases hw : w u <;> simp [hw, List.length_append] <;> omega

/-- The visited set only grows. -/
theorem crawl_single_mono (w : World) (u : String) (d : Nat) (b : String)
    (v : List String) (md mp : Nat) :
    v.length ≤ (crawl_single w u d b v md mp).2.length := by
  unfold crawl_single
  split
  · exact Nat.le_refl _
  split
  · exact Nat.le_refl _
  split
  · exact Nat.le_refl _
  cases hw : w u <;> simp [hw, List.length_append]

/-- The visited set stays duplicate-free: a URL is inserted only when
absent. -/
theorem crawl_single_nodup (w : World) (u : String) (d : Nat) (b : String)
    (v : List String) (md mp : Nat) (h : v.Nodup) :
    (crawl_single w u d b v md mp).2.Nodup := by
  unfold crawl_single
  split
  · exact h
  split
  · exact h
  split
  · exact h
  rename_i hcond
  push_neg at hcond
  cases hw : w u <;> simp [hw, List.nodup_append, h, hcond.1]

/-- A successful task consumed one budget slot, records the entry's
URL and depth, obeyed the depth gate, and folded its links at depth
`d + 1`. -/
theorem crawl_single_some (w : World) (u : String) (d : Nat) (b : String)
    (v : List String) (md mp : Nat) (e : Emit) (links : List (String × Nat))
    (h : (crawl_single w u d b v md mp).1 = some (e, links)) :
    (crawl_single w u d b v md mp).2.length = v.length + 1
    ∧ e.url = u ∧ e.depth = d ∧ d ≤ md
    ∧ ∀ l ∈ links, l.2 = d + 1 := by
  unfold crawl_single at h ⊢
  split at h
  · exact absurd h (by simp)
  split at h
  · exact absurd h (by simp)
  split at h
  · exact absurd h (by simp)
  rename_i hd hfil hclaim
  cases hw : w u with
  | none => rw [hw] at h; exact absurd h (by simp)
  | some hrefs =>
    rw [hw] at h
    simp only [Option.some.injEq, Prod.mk.injEq] at h
    obtain ⟨he, hl⟩ := h
    refine ⟨?_, by rw [← he], by rw [← he], by omega, ?_⟩
    · simp [hd, hfil, hclaim, hw, List.length_append]
    · intro l hl2
      rw [← hl] at hl2
      obtain ⟨nu, _, hnu⟩ := List.mem_map.mp hl2
      rw [← hnu]

/-- A successful claim on `u1` followed by one on a different URL `u2`
both go through when capacity allows: form of `crawl_single` on a
fetchable, unfiltered, unvisited URL. -/
theorem crawl_single_success (w : World) (u : String) (d : Nat) (b : String)
    (v : List String) (md mp : Nat) (p : List String)
    (hd : ¬ md < d) (hl : is_login_page u = false) (ht : is_tracking u = false)
    (hm : u ∉ v) (hc : v.length < mp) (hw : w u = some p) :
    crawl_single w u d b v md mp =
      (some ({ url := u, depth := d },
        ((p.map (fun h => pyUrljoin u h)).filter
          (fun nu => is_internal b nu)).map (fun nu => (nu, d + 1))), v ++ [u]) := by
  unfold crawl_single
  rw [if_neg hd, if_neg (by simp [hl, ht]),
    if_neg (by push_neg; exact ⟨hm, by omega⟩), hw]

/-- A wave preserves the page-budget bound on the visited set. -/
theorem processWave_vis_le (w : World) (b : String) (md mp : Nat)
    (q : List (String × Nat)) :
    ∀ v : List String, v.length ≤ mp →
      (processWave w b md mp q v).2.2.length ≤ mp := by
  induction q with
  | nil => intro v hv; simpa [processWave] using hv
  | cons e rest ih =>
    intro v hv
    obtain ⟨u, d⟩ := e
    simp only [processWave]
    have h2 := ih _ (crawl_single_vis_le w u d b v md mp hv)
    rcases hr : (crawl_single w u d b v md mp).1 with _ | ⟨em, links⟩ <;>
      simp [hr, h2]

/-- A wave emits at most as many records as it adds URLs to the
visited set. -/
theorem processWave_emits_le (w : World) (b : String) (md mp : Nat)
    (q : List (String × Nat)) :
    ∀ v : List String,
      (processWave w b md mp q v).1.length + v.length ≤
        (processWave w b md mp q v).2.2.length := by
  induction q with
  | nil => intro v; simp [processWave]
  | cons e rest ih =>
    intro v
    obtain ⟨u, d⟩ := e
    simp only [processWave]
    have hmono := crawl_single_mono w u d b v md mp
    have hrec := ih (crawl_single w u d b v md mp).2
    rcases hr : (crawl_single w u d b v md mp).1 with _ | ⟨em, links⟩
    · simp only [hr]
      omega
    · have hone := (crawl_single_some w u d b v md mp em links hr).1
      simp only [hr, List.length_cons]
      omega

/-- Every record a wave emits carries a depth within the bound. -/
theorem processWave_depth (w : World) (b : String) (md mp : Nat)
    (q : List (String × Nat)) :
    ∀ (v : List String) (e : Emit), e ∈ (processWave w b md mp q v).1 →
      e.depth ≤ md := by
  induction q with
  | nil => intro v e he; simp [processWave] at he
  | cons entry rest ih =>
    intro v e he
    obtain ⟨u, d⟩ := entry
    simp only [processWave] at he
    rcases hr : (crawl_single w u d b v md mp).1 with _ | ⟨em, links⟩
    · rw [hr] at he
      exact ih _ e he
    · rw [hr] at he
      rcases List.mem_cons.mp he with he1 | he2
      · obtain ⟨_, _, hdep, hle, _⟩ := crawl_single_some w u d b v md mp em links hr
        rw [he1, hdep]
        exact hle
      · exact ih _ e he2

/-- A wave keeps the visited set duplicate-free. -/
theorem processWave_nodup (w : World) (b : String) (md mp : Nat)
    (q : List (String × Nat)) :
    ∀ v : List String, v.Nodup → (processWave w b md mp q v).2.2.Nodup := by
  induction q with
  | nil => intro v hv; simpa [processWave] using hv
  | cons e rest ih =>
    intro v hv
    obtain ⟨u, d⟩ := e
    simp only [processWave]
    have h2 := ih _ (crawl_single_nodup w u d b v md mp hv)
    rcases hr : (crawl_single w u d b v md mp).1 with _ | ⟨em, links⟩ <;>
      simp [hr, h2]

/-- Across all waves, the emitted records fit inside the remaining
page budget. -/
theorem crawlStream_emits_le (w : World) (b : String) (md mp fuel : Nat) :
    ∀ (q : List (String × Nat)) (v : List String), v.length ≤ mp →
      (crawlStream w b md mp fuel q v).1.length + v.length ≤ mp := by
  induction fuel with
  | zero => intro q v hv; simpa [crawlStream] using hv
  | succ n ih =>
    intro q v hv
    simp only [crawlStream]
    split
    · simpa using hv
    have hw1 := processWave_emits_le w b md mp q v
    have hw2 := processWave_vis_le w b md mp q v hv
    have hrec := ih (processWave w b md mp q v).2.1 (processWave w b md mp q v).2.2 hw2
    simp only [List.length_append]
    omega

/-- Across all waves, every emitted record has depth within the bound. -/
theorem crawlStream_depth (w : World) (b : String) (md mp fuel : Nat) :
    ∀ (q : List (String × Nat)) (v : List String) (e : Emit),
      e ∈ (crawlStream w b md mp fuel q v).1 → e.depth ≤ md := by
  induction fuel with
  | zero => intro q v e he; simp [crawlStream] at he
  | succ n ih =>
    intro q v e he
    simp only [crawlStream] at he
    split at he
    · simp at he
    rcases List.mem_append.mp he with he1 | he2
    · exact processWave_depth w b md mp q v e he1
    · exact ih _ _ e he2

/-- Claim C1: a crawl emits at most `maxPages` records; a claim
attempt against a visited set at (or beyond) capacity returns no
result and leaves the set unchanged; one claim keeps the visited set
within capacity; and the visited set (a set: duplicate-free list)
stays duplicate-free. -/
theorem claim_C1 (w : World) (seed : String) (mp md fuel : Nat) :
    (crawl_endpoint w seed mp md fuel).length ≤ mp
    ∧ (∀ (u : String) (d : Nat) (b : String) (v : List String),
        mp ≤ v.length → crawl_single w u d b v md mp = (none, v))
    ∧ (∀ (u : String) (d : Nat) (b : String) (v : List String),
        v.length ≤ mp → (crawl_single w u d b v md mp).2.length ≤ mp)
    ∧ (∀ (u : String) (d : Nat) (b : String) (v : List String),
        v.Nodup → (crawl_single w u d b v md mp).2.Nodup) := by
  refine ⟨?_, fun u d b v h => crawl_single_cap w u d b v md mp h,
    fun u d b v h => crawl_single_vis_le w u d b v md mp h,
    fun u d b v h => crawl_single_nodup w u d b v md mp h⟩
  have h := crawlStream_emits_le w seed md mp fuel [(seed, 0)] [] (by simp)
  simp only [List.length_nil] at h
  unfold crawl_endpoint
  omega

/-- Witness for claim C1 at a concrete crawl and a concrete full
visited set. -/
theorem claim_C1_witness :
    (crawl_endpoint exWorld "http://h/a" 2 1 3).length ≤ 2
    ∧ (2 ≤ (["http://h/x", "http://h/y"] : List String).length
        ∧ crawl_single exWorld "http://h/a" 0 "http://h/a" ["http://h/x", "http://h/y"] 1 2
            = (none, ["http://h/x", "http://h/y"])) :=
  ⟨(claim_C1 exWorld "http://h/a" 2 1 3).1,
    by decide,
    (claim_C1 exWorld "http://h/a" 2 1 3).2.1 "http://h/a" 0 "http://h/a"
      ["http://h/x", "http://h/y"] (by decide)⟩

/-- Claim C2: entries beyond the depth bound are dropped before any
fetch (the visited set is untouched and the result is empty); a
successful task folds its links at depth one more than its own; and
every emitted record — reached from the seed at depth 0 through such
unit increments — has depth at most `maxDepth`. -/
theorem claim_C2 (w : World) (seed : String) (mp md fuel : Nat) :
    (∀ (u : String) (d : Nat) (b : String) (v : List String),
        md < d → crawl_single w u d b v md mp = (none, v))
    ∧ (∀ (u : String) (d : Nat) (b : String) (v : List String)
        (e : Emit) (links : List (String × Nat)) (v2 : List String),
        crawl_single w u d b v md mp = (some (e, links), v2) →
          e.depth = d ∧ d ≤ md ∧ ∀ l ∈ links, l.2 = d + 1)
    ∧ (∀ e ∈ crawl_endpoint w seed mp md fuel, e.depth ≤ md) := by
  refine ⟨fun u d b v h => crawl_single_deep w u d b v md mp h, ?_, ?_⟩
  · intro u d b v e links v2 h
    have h1 : (crawl_single w u d b v md mp).1 = some (e, links) := by
      rw [h]
    obtain ⟨_, _, hdep, hle, hlinks⟩ := crawl_single_some w u d b v md mp e links h1
    exact ⟨hdep, hle, hlinks⟩
  · intro e he
    exact crawlStream_depth w seed md mp fuel [(seed, 0)] [] e he

/-- Witness for claim C2: a concrete too-deep entry is dropped, and a
concrete emitted record respects the depth bound. -/
theorem claim_C2_witness :
    ((1 : Nat) < 3 ∧ crawl_single exWorld "http://h/a" 3 "http://h/a" [] 1 5 = (none, []))
    ∧ ((⟨"http://h/a", 0⟩ : Emit) ∈ crawl_endpoint exWorld "http://h/a" 10 2 3
        ∧ (⟨"http://h/a", 0⟩ : Emit).depth ≤ 2) :=
  ⟨⟨by decide, (claim_C2 exWorld "http://h/a" 5 1 3).1 "http://h/a" 3 "http://h/a" [] (by decide)⟩,
    by decide,
    (claim_C2 exWorld "http://h/a" 10 2 3).2.2 ⟨"http://h/a", 0⟩ (by decide)⟩

/-- Claim C10: visited-set membership is raw string comparison — two
URLs that differ in any character (a fragment suffix included) are
claimed independently: both are fetched, both are emitted, and both
count against the page budget; whereas re-submitting the identical
string is claimed only once. -/
theorem claim_C10 (w : World) (b u1 u2 : String) (d : Nat) (v : List String)
    (md mp : Nat) (p1 p2 : List String)
    (hne : u1 ≠ u2) (hd : d ≤ md)
    (hf1 : is_login_page u1 = false) (ht1 : is_tracking u1 = false)
    (hf2 : is_login_page u2 = false) (ht2 : is_tracking u2 = false)
    (hm1 : u1 ∉ v) (hm2 : u2 ∉ v)
    (hcap : v.length + 2 ≤ mp)
    (hw1 : w u1 = some p1) (hw2 : w u2 = some p2) :
    ((processWave w b md mp [(u1, d), (u2, d)] v).1.map Emit.url = [u1, u2])
    ∧ (processWave w b md mp [(u1, d), (u2, d)] v).2.2 = v ++ [u1, u2]
    ∧ ((processWave w b md mp [(u1, d), (u1, d)] v).1.map Emit.url = [u1]) := by
  have h1 := crawl_single_success w u1 d b v md mp p1 (by omega) hf1 ht1 hm1
    (by omega) hw1
  have hm2b : u2 ∉ v ++ [u1] := by
    simp only [List.mem_append, List.mem_singleton]
    rintro (hc | hc)
    · exact hm2 hc
    · exact hne hc.symm
  have h2 := crawl_single_success w u2 d b (v ++ [u1]) md mp p2 (by omega) hf2 ht2
    hm2b (by simp [List.length_append]; omega) hw2
  have h3 : crawl_single w u1 d b (v ++ [u1]) md mp = (none, v ++ [u1]) := by
    unfold crawl_single
    rw [if_neg (by omega : ¬ md < d), if_neg (by simp [hf1, ht1]),
      if_pos (Or.inl (by simp))]
  refine ⟨?_, ?_, ?_⟩ <;>
    simp [processWave, h1, h2, h3, List.append_assoc]

/-- Witness for claim C10 at the concrete pair of URLs from the claim:
`page` and `page#section` differ only in the fragment and are both
claimed, emitted, and counted. -/
theorem claim_C10_witness :
    (("http://h/page" : String) ≠ "http://h/page#section")
    ∧ ((processWave dupWorld "http://h/seed" 2 10
          [("http://h/page", 1), ("http://h/page#section", 1)] []).1.map Emit.url
        = ["http://h/page", "http://h/page#section"])
    ∧ (processWave dupWorld "http://h/seed" 2 10
          [("http://h/page", 1), ("http://h/page#section", 1)] []).2.2
        = [] ++ ["http://h/page", "http://h/page#section"] :=
  ⟨by decide,
    (claim_C10 dupWorld "http://h/seed" "http://h/page" "http://h/page#section" 1 [] 2 10
      [] [] (by decide) (by decide) (by decide) (by decide) (by decide) (by decide)
      (by decide) (by decide) (by decide) rfl rfl).1,
    (claim_C10 dupWorld "http://h/seed" "http://h/page" "http://h/page#section" 1 [] 2 10
      [] [] (by decide) (by decide) (by decide) (by decide) (by decide) (by decide)
      (by decide) (by decide) (by decide) rfl rfl).2.1⟩

/-! ### Tree mutation and frontier links (claim C8) -/

mutual
/-- Pruning a kept node can only remove anchors below it: the
surviving anchor hrefs form a sublist of the original ones. -/
theorem anchors_pruneN (names : List String) (n : HNode) :
    ∀ n2, pruneN names n = some n2 →
      ((anchorsN n2).map Prod.fst).Sublist ((anchorsN n).map Prod.fst) := by
  cases n with
  | textNode s =>
    intro n2 h
    simp only [pruneN, Option.some.injEq] at h
    subst h
    exact List.Sublist.refl _
  | elem nm a c =>
    intro n2 h
    simp only [pruneN] at h
    by_cases hc : names.contains nm
    · rw [if_pos hc] at h
      exact absurd h (by simp)
    · rw [if_neg hc] at h
      simp only [Option.some.injEq] at h
      subst h
      have hf := anchors_pruneF names c
      simp only [anchorsN, List.map_append]
      cases hb : (nm == "a" : Bool) with
      | false => simpa [hb] using hf
      | true =>
        cases hh : getAttr a "href" with
        | none => simpa [hb, hh] using hf
        | some href =>
          simpa [hb, hh] using hf.cons₂ href
/-- Pruning a forest can only remove anchors: the surviving anchor
hrefs form a sublist of the original ones. -/
theorem anchors_pruneF (names : List String) (f : HForest) :
    ((anchorsF (pruneF names f)).map Prod.fst).Sublist ((anchorsF f).map Prod.fst) := by
  cases f with
  | nil => exact List.Sublist.refl _
  | cons h t =>
    simp only [pruneF]
    cases hp : pruneN names h with
    | none =>
      simp only [anchorsF, List.map_append]
      exact (anchors_pruneF names t).trans (List.sublist_append_right _ _)
    | some h2 =>
      simp only [anchorsF, List.map_append]
      exact (anchors_pruneN names h h2 hp).append (anchors_pruneF names t)
end

/-- Claim C8, amended: the noise-tag removal mutates the single shared
parsed tree in place, not a working copy.  The link extraction that
runs before the removal (step 2 of `crawl_single`) sees the full
document, but the frontier links are computed afterwards from the
pruned tree, whose anchors are only a sublist of the page's anchors —
anchors inside removed elements do not reach the frontier. -/
theorem claim_C8 (doc : HForest) (url baseUrl : String) :
    (page_pipeline doc url baseUrl).links = extract_links doc url
    ∧ (page_pipeline doc url baseUrl).nextUrls =
        nextUrlsOf (pruneF noiseTags doc) url baseUrl
    ∧ ((anchorsF (pruneF noiseTags doc)).map Prod.fst).Sublist
        ((anchorsF doc).map Prod.fst) :=
  ⟨rfl, rfl, anchors_pruneF noiseTags doc⟩

/-- Counterexample to claim C8 as stated: on a page whose `nav`
contains an internal anchor, the frontier links computed by the code
miss that anchor, while the all-anchors frontier the claim describes
would include it. -/
theorem claim_C8_cex :
    (page_pipeline cexDoc "http://h/p" "http://h/p").nextUrls = ["http://h/y"]
    ∧ specNextUrls cexDoc "http://h/p" "http://h/p" = ["http://h/x", "http://h/y"]
    ∧ (["http://h/y"] : List String) ≠ ["http://h/x", "http://h/y"] := by decide

/-! ### JSON mining (claim C7) -/

/-- Folding a concatenation of pair sequences folds them in turn. -/
theorem groupAcc_append (m : TMap) (l1 l2 : List (String × String)) :
    groupAcc m (l1 ++ l2) = groupAcc (groupAcc m l1) l2 := by
  simp [groupAcc, List.foldl_append]

mutual
/-- The walk of `json_to_sections` builds its dictionary exactly by
folding the kept `(key, stripped text)` pairs into it, in traversal
order. -/
theorem walkJ_eq (pfx : String) (o : PyJson) :
    ∀ (path : String) (lk : Option String) (m : TMap),
      walkJ pfx o path lk m = groupAcc m (keptJ pfx o path lk) := by
  cases o with
  | null => intro path lk m; simp [walkJ, keptJ, groupAcc]
  | bool b => intro path lk m; simp [walkJ, keptJ, groupAcc]
  | num n => intro path lk m; simp [walkJ, keptJ, groupAcc]
  | str s =>
    intro path lk m
    simp only [walkJ, keptJ]
    by_cases hk : keyOK lk = true
    · rw [if_pos hk]
      by_cases h0 : pyStrip s = ""
      · rw [if_neg (by simp [h0, hk]), add_text, if_pos h0]
        simp [groupAcc]
      · by_cases hu : urlish (pyStrip s) = true
        · rw [if_neg (by simp [hu]), add_text, if_neg h0, if_pos hu]
          simp [groupAcc]
        · by_cases h5 : 5 ≤ numWords (pyStrip s)
          · rw [if_pos ⟨hk, h0, by simp [Bool.not_eq_true] at hu; exact hu, h5⟩,
              add_text, if_neg h0, if_neg hu]
            rw [if_neg (by omega)]
            simp [groupAcc]
          · rw [if_neg (by simp [h5]), add_text, if_neg h0, if_neg hu,
              if_pos (by omega)]
            simp [groupAcc]
    · rw [if_neg hk, if_neg (by simp [hk])]
      simp [groupAcc]
  | arr xs => intro path lk m; simp only [walkJ, keptJ]; exact walkA_eq pfx xs path lk m
  | obj kvs => intro path lk m; simp only [walkJ, keptJ]; exact walkO_eq pfx kvs path m
/-- Array case of `walkJ_eq`. -/
theorem walkA_eq (pfx : String) (xs : PyArr) :
    ∀ (path : String) (lk : Option String) (m : TMap),
      walkA pfx xs path lk m = groupAcc m (keptA pfx xs path lk) := by
  cases xs with
  | nil => intro path lk m; simp [walkA, keptA, groupAcc]
  | cons h t =>
    intro path lk m
    simp only [walkA, keptA]
    rw [walkJ_eq pfx h path lk m, walkA_eq pfx t path lk _, groupAcc_append]
/-- Object case of `walkJ_eq`. -/
theorem walkO_eq (pfx : String) (kvs : PyObj) :
    ∀ (path : String) (m : TMap),
      walkO pfx kvs path m = groupAcc m (keptO pfx kvs path) := by
  cases kvs with
  | nil => intro path m; simp [walkO, keptO, groupAcc]
  | cons k v t =>
    intro path m
    simp only [walkO, keptO]
    rw [walkJ_eq pfx v (extendPath path k) (some k) m,
      walkO_eq pfx t path _, groupAcc_append]
end

/-- Bool/Prop alignment of the keep condition: `specKeep` holds exactly
when the `add_text` path of the walk stores the string. -/
theorem specKeep_iff (lk : Option String) (s : String) :
    specKeep lk s = true ↔
      (keyOK lk = true ∧ pyStrip s ≠ "" ∧ urlish (pyStrip s) = false
        ∧ 5 ≤ numWords (pyStrip s)) := by
  constructor
  · intro h
    simp only [specKeep, Bool.and_eq_true, decide_eq_true_eq, Bool.not_eq_true'] at h
    refine ⟨h.2, ?_, h.1.2, h.1.1⟩
    intro he
    have h5 := h.1.1
    rw [he] at h5
    exact absurd h5 (by decide)
  · rintro ⟨hk, _, hu, h5⟩
    simp [specKeep, hk, hu, h5]

mutual
/-- The kept pairs of a JSON value are exactly its string values that
satisfy the keep condition, with their key-paths, in traversal order. -/
theorem keptJ_eq (pfx : String) (o : PyJson) :
    ∀ (path : String) (lk : Option String),
      keptJ pfx o path lk = (allStrJ o path lk).filterMap (fun q =>
        if specKeep q.2.1 q.2.2 = true then
          some ((if q.1 ≠ "" then q.1 else pfx), pyStrip q.2.2) else none) := by
  cases o with
  | null => intro path lk; simp [keptJ, allStrJ]
  | bool b => intro path lk; simp [keptJ, allStrJ]
  | num n => intro path lk; simp [keptJ, allStrJ]
  | str s =>
    intro path lk
    simp only [keptJ, allStrJ, List.filterMap_cons, List.filterMap_nil]
    by_cases hc : specKeep lk s = true
    · simp [hc, (specKeep_iff lk s).mp hc]
    · have ha := fun hp => hc ((specKeep_iff lk s).mpr hp)
      simp only [hc, if_false, Bool.false_eq_true]
      rw [if_neg ha]
  | arr xs =>
    intro path lk
    simp only [keptJ, allStrJ]
    exact keptA_eq pfx xs path lk
  | obj kvs =>
    intro path lk
    simp only [keptJ, allStrJ]
    exact keptO_eq pfx kvs path
/-- Array case of `keptJ_eq`. -/
theorem keptA_eq (pfx : String) (xs : PyArr) :
    ∀ (path : String) (lk : Option String),
      keptA pfx xs path lk = (allStrA xs path lk).filterMap (fun q =>
        if specKeep q.2.1 q.2.2 = true then
          some ((if q.1 ≠ "" then q.1 else pfx), pyStrip q.2.2) else none) := by
  cases xs with
  | nil => intro path lk; simp [keptA, allStrA]
  | cons h t =>
    intro path lk
    simp only [keptA, allStrA, List.filterMap_append]
    rw [keptJ_eq pfx h path lk, keptA_eq pfx t path lk]
/-- Object case of `keptJ_eq`. -/
theorem keptO_eq (pfx : String) (kvs : PyObj) :
    ∀ path : String,
      keptO pfx kvs path = (allStrO kvs path).filterMap (fun q =>
        if specKeep q.2.1 q.2.2 = true then
          some ((if q.1 ≠ "" then q.1 else pfx), pyStrip q.2.2) else none) := by
  cases kvs with
  | nil => intro path; simp [keptO, allStrO]
  | cons k v t =>
    intro path
    simp only [keptO, allStrO, List.filterMap_append]
    rw [keptJ_eq pfx v (extendPath path k) (some k), keptO_eq pfx t path]
end

/-- Lookup of an absent key yields the empty list. -/
theorem lookupT_nil_of_not_mem (k : String) :
    ∀ m : TMap, k ∉ keysOf m → lookupT m k = [] := by
  intro m
  induction m with
  | nil => intro _; rfl
  | cons e rest ih =>
    intro h
    simp only [keysOf, List.map_cons, List.mem_cons, not_or] at h
    simp only [lookupT]
    rw [if_neg (fun he : e.1 = k => h.1 he.symm)]
    exact ih (by simpa [keysOf] using h.2)

/-- Lookup distributes over append by key presence. -/
theorem lookupT_append (m m2 : TMap) (k : String) :
    lookupT (m ++ m2) k = if k ∈ keysOf m then lookupT m k else lookupT m2 k := by
  induction m with
  | nil => simp [keysOf, lookupT]
  | cons e rest ih =>
    have hkeys : keysOf (e :: rest) = e.1 :: keysOf rest := rfl
    rw [List.cons_append, hkeys]
    by_cases he : e.1 = k
    · simp only [lookupT, if_pos he]
      rw [if_pos (by rw [he]; exact List.mem_cons_self _ _)]
    · simp only [lookupT, if_neg he]
      rw [ih]
      by_cases hm : k ∈ keysOf rest
      · rw [if_pos hm, if_pos (List.mem_cons_of_mem _ hm)]
      · have hno : k ∉ e.1 :: keysOf rest := by
          intro hk
          rcases List.mem_cons.mp hk with hk1 | hk2
          · exact he hk1.symm
          · exact hm hk2
        rw [if_neg hm, if_neg hno]

/-- Appending a text under key `k` leaves other lookups unchanged. -/
theorem lookupT_modify_ne (k t k2 : String) (hne : k2 ≠ k) :
    ∀ m : TMap,
      lookupT (m.map (fun e => if e.1 = k then (e.1, e.2 ++ [t]) else e)) k2 =
        lookupT m k2 := by
  intro m
  induction m with
  | nil => rfl
  | cons e rest ih =>
    by_cases he : e.1 = k
    · have h1 : ¬ e.1 = k2 := by rw [he]; exact fun hc => hne hc.symm
      simp only [List.map_cons, if_pos he, lookupT]
      rw [if_neg h1, if_neg h1, ih]
    · simp only [List.map_cons, if_neg he, lookupT]
      by_cases h2 : e.1 = k2
      · rw [if_pos h2, if_pos h2]
      · rw [if_neg h2, if_neg h2, ih]

/-- Appending a text under a present key appends it to that lookup. -/
theorem lookupT_modify_eq (k t : String) :
    ∀ m : TMap, k ∈ keysOf m →
      lookupT (m.map (fun e => if e.1 = k then (e.1, e.2 ++ [t]) else e)) k =
        lookupT m k ++ [t] := by
  intro m
  induction m with
  | nil => intro h; simp [keysOf] at h
  | cons e rest ih =>
    intro h
    by_cases he : e.1 = k
    · simp [List.map_cons, he, lookupT]
    · simp only [List.map_cons, if_neg he, lookupT]
      refine ih ?_
      simp only [keysOf, List.map_cons, List.mem_cons] at h
      rcases h with h | h
      · exact absurd h.symm he
      · simpa [keysOf] using h

/-- One `setdefault`-append step, seen through lookup. -/
theorem lookupT_addToMap (m : TMap) (k t k2 : String) :
    lookupT (addToMap m k t) k2 =
      if k2 = k then lookupT m k2 ++ [t] else lookupT m k2 := by
  unfold addToMap
  by_cases hm : k ∈ keysOf m
  · rw [if_pos hm]
    by_cases hk2 : k2 = k
    · rw [if_pos hk2, hk2, lookupT_modify_eq k t m hm]
    · rw [if_neg hk2, lookupT_modify_ne k t k2 hk2 m]
  · rw [if_neg hm, lookupT_append m [(k, [t])] k2]
    by_cases hk2 : k2 = k
    · have hm2 : k2 ∉ keysOf m := by rw [hk2]; exact hm
      rw [if_pos hk2, if_neg hm2, lookupT_nil_of_not_mem k2 m hm2]
      simp [lookupT, hk2]
    · by_cases hmem : k2 ∈ keysOf m
      · rw [if_pos hmem, if_neg hk2]
      · have hne2 : ¬ k = k2 := fun hc => hk2 hc.symm
        rw [if_neg hmem, if_neg hk2, lookupT_nil_of_not_mem k2 m hmem]
        simp [lookupT, hne2]

/-- The append-modify step keeps the key list unchanged. -/
theorem keysOf_modify (k t : String) :
    ∀ m : TMap,
      keysOf (m.map (fun e => if e.1 = k then (e.1, e.2 ++ [t]) else e)) = keysOf m := by
  intro m
  induction m with
  | nil => rfl
  | cons e rest ih =>
    simp only [keysOf, List.map_cons] at ih ⊢
    by_cases he : e.1 = k
    · rw [if_pos he]
      simp [ih]
    · rw [if_neg he]
      simp [ih]

/-- One `setdefault`-append step, seen through the key list. -/
theorem keysOf_addToMap (m : TMap) (k t : String) :
    keysOf (addToMap m k t) =
      if k ∈ keysOf m then keysOf m else keysOf m ++ [k] := by
  unfold addToMap
  by_cases hm : k ∈ keysOf m
  · rw [if_pos hm, if_pos hm, keysOf_modify]
  · rw [if_neg hm, if_neg hm]
    simp [keysOf]

/-- Folding kept pairs: each key collects exactly its texts, in order. -/
theorem lookupT_groupAcc (ps : List (String × String)) :
    ∀ (m : TMap) (k : String),
      lookupT (groupAcc m ps) k = lookupT m k ++ textsFor ps k := by
  induction ps with
  | nil => intro m k; simp [groupAcc, textsFor]
  | cons p rest ih =>
    intro m k
    have hstep : groupAcc m (p :: rest) = groupAcc (addToMap m p.1 p.2) rest := rfl
    rw [hstep, ih, lookupT_addToMap]
    by_cases hk : k = p.1
    · rw [if_pos hk]
      have h2 : p.1 = k := hk.symm
      simp [textsFor, List.filter_cons, h2, List.append_assoc]
    · rw [if_neg hk]
      have h2 : ¬ p.1 = k := fun hc => hk hc.symm
      simp [textsFor, List.filter_cons, h2]

/-- Folding kept pairs: the key list is the old one extended by the
new keys in first-occurrence order. -/
theorem keysOf_groupAcc (ps : List (String × String)) :
    ∀ m : TMap,
      keysOf (groupAcc m ps) = keysOf m ++ firstOccurAux (keysOf m) (ps.map Prod.fst) := by
  induction ps with
  | nil => intro m; simp [groupAcc, firstOccurAux]
  | cons p rest ih =>
    intro m
    have hstep : groupAcc m (p :: rest) = groupAcc (addToMap m p.1 p.2) rest := rfl
    rw [hstep, ih, keysOf_addToMap]
    by_cases hm : p.1 ∈ keysOf m
    · rw [if_pos hm]
      simp [firstOccurAux, hm]
    · rw [if_neg hm]
      simp [firstOccurAux, hm, List.append_assoc]

/-- First-occurrence deduplication is duplicate-free, avoids the seen
set, and only returns keys of its input. -/
theorem firstOccurAux_spec (l : List String) :
    ∀ seen, (firstOccurAux seen l).Nodup ∧
      ∀ k ∈ firstOccurAux seen l, k ∉ seen ∧ k ∈ l := by
  induction l with
  | nil => intro seen; simp [firstOccurAux]
  | cons a t ih =>
    intro seen
    by_cases ha : a ∈ seen
    · simp only [firstOccurAux, if_pos ha]
      obtain ⟨h1, h2⟩ := ih seen
      exact ⟨h1, fun k hk => ⟨(h2 k hk).1, List.mem_cons_of_mem _ (h2 k hk).2⟩⟩
    · simp only [firstOccurAux, if_neg ha]
      obtain ⟨h1, h2⟩ := ih (seen ++ [a])
      constructor
      · rw [List.nodup_cons]
        exact ⟨fun hc => (h2 a hc).1 (List.mem_append_right _ (by simp)), h1⟩
      · intro k hk
        rcases List.mem_cons.mp hk with rfl | hk2
        · exact ⟨ha, List.mem_cons_self _ _⟩
        · exact ⟨fun hs => (h2 k hk2).1 (List.mem_append_left _ hs),
            List.mem_cons_of_mem _ (h2 k hk2).2⟩

/-- In a map with duplicate-free keys, each entry is what lookup of its
key returns. -/
theorem entry_lookupT :
    ∀ m : TMap, (keysOf m).Nodup → ∀ e ∈ m, lookupT m e.1 = e.2 := by
  intro m
  induction m with
  | nil => intro _ e he; cases he
  | cons f rest ih =>
    intro hnd e he
    have hkeys : keysOf (f :: rest) = f.1 :: keysOf rest := rfl
    rw [hkeys, List.nodup_cons] at hnd
    rcases List.mem_cons.mp he with rfl | he2
    · simp [lookupT]
    · have hne : ¬ f.1 = e.1 := by
        intro hc
        exact hnd.1 (hc ▸ List.mem_map_of_mem Prod.fst he2)
      simp only [lookupT, if_neg hne]
      exact ih hnd.2 e he2

/-- A text of whitespace only has no words. -/
theorem countWordsAux_ws :
    ∀ l : List Char, (∀ c ∈ l, isWs c = true) → ∀ b, countWordsAux l b = 0 := by
  intro l
  induction l with
  | nil => intro _ b; rfl
  | cons c t ih =>
    intro h b
    have hc := h c (List.mem_cons_self _ _)
    simp [countWordsAux, hc, ih (fun x hx => h x (List.mem_cons_of_mem _ hx))]

/-- The first survivor of `dropWhile` fails the predicate. -/
theorem dropWhile_head_not (p : Char → Bool) :
    ∀ (l : List Char) (c : Char) (t : List Char),
      l.dropWhile p = c :: t → p c = false := by
  intro l
  induction l with
  | nil => intro c t h; cases h
  | cons a r ih =>
    intro c t h
    cases ha : p a with
    | true =>
      rw [List.dropWhile_cons_of_pos ha] at h
      exact ih c t h
    | false =>
      rw [List.dropWhile_cons_of_neg (by simp [ha])] at h
      injection h with h1 _
      rw [← h1]
      exact ha

/-- A string that strips to empty is whitespace throughout. -/
theorem pyStrip_empty_all_ws (s : String) (h : pyStrip s = "") :
    ∀ c ∈ s.toList, isWs c = true := by
  unfold pyStrip at h
  have h1 : ((s.toList.dropWhile isWs).reverse.dropWhile isWs).reverse = [] := by
    have h2 := congrArg String.toList h
    simpa using h2
  rw [List.reverse_eq_nil_iff] at h1
  have h2 : ∀ c ∈ (s.toList.dropWhile isWs).reverse, isWs c = true := by
    intro c hc
    exact List.dropWhile_eq_nil_iff.mp h1 c hc
  intro c hm
  have hsplit := List.takeWhile_append_dropWhile (p := isWs) (l := s.toList)
  rw [← hsplit] at hm
  rcases List.mem_append.mp hm with hm1 | hm2
  · exact List.mem_takeWhile_imp hm1
  · exact h2 c (List.mem_reverse.mpr hm2)

/-- A nonempty stripped string starts with a non-whitespace character. -/
theorem pyStrip_head (s : String) (h : pyStrip s ≠ "") :
    ∃ c t2, (pyStrip s).toList = c :: t2 ∧ isWs c = false := by
  have hL : (pyStrip s).toList =
      ((s.toList.dropWhile isWs).reverse.dropWhile isWs).reverse := rfl
  have hne : ((s.toList.dropWhile isWs).reverse.dropWhile isWs).reverse ≠ [] := by
    intro hnil
    apply h
    have : pyStrip s =
        String.mk (((s.toList.dropWhile isWs).reverse.dropWhile isWs).reverse) := rfl
    rw [this, hnil]
  have hsuf : (s.toList.dropWhile isWs).reverse.dropWhile isWs <:+
      (s.toList.dropWhile isWs).reverse := List.dropWhile_suffix _
  obtain ⟨pre, hpre⟩ := hsuf
  have hprefix : ((s.toList.dropWhile isWs).reverse.dropWhile isWs).reverse ++ pre.reverse
      = s.toList.dropWhile isWs := by
    rw [← List.reverse_append, hpre, List.reverse_reverse]
  cases hLl : ((s.toList.dropWhile isWs).reverse.dropWhile isWs).reverse with
  | nil => exact absurd hLl hne
  | cons c t2 =>
    refine ⟨c, t2, by rw [hL, hLl], ?_⟩
    rw [hLl] at hprefix
    exact dropWhile_head_not isWs s.toList c (t2 ++ pre.reverse)
      (by rw [← hprefix]; rfl)

/-- Joining a list whose first element is a nonempty stripped string
yields a string that does not strip to empty. -/
theorem pyJoin_strip_ne (ts : List String) (s0 : String) (rest : List String)
    (hts : ts = pyStrip s0 :: rest) (hne : pyStrip s0 ≠ "") :
    pyStrip (pyJoin " " ts) ≠ "" := by
  subst hts
  obtain ⟨c, t2, hcl, hcw⟩ := pyStrip_head s0 hne
  have hcmem : c ∈ (pyJoin " " (pyStrip s0 :: rest)).toList := by
    cases rest with
    | nil =>
      show c ∈ (pyStrip s0).toList
      rw [hcl]
      exact List.mem_cons_self _ _
    | cons b t3 =>
      show c ∈ (pyStrip s0 ++ " " ++ pyJoin " " (b :: t3)).data
      rw [String.data_append, String.data_append]
      refine List.mem_append_left _ (List.mem_append_left _ ?_)
      show c ∈ (pyStrip s0).toList
      rw [hcl]
      exact List.mem_cons_self _ _
  intro hcon
  have hall := pyStrip_empty_all_ws _ hcon c hcmem
  rw [hcw] at hall
  cases hall

/-- Every kept pair's text is a stripped string with at least five
words (hence nonempty). -/
theorem kp_elem_shape (pfx : String) (o : PyJson) (path : String) (lk : Option String) :
    ∀ p ∈ keptJ pfx o path lk, ∃ s0, p.2 = pyStrip s0 ∧ 5 ≤ numWords p.2 := by
  intro p hp
  rw [keptJ_eq] at hp
  obtain ⟨q, hq, hF⟩ := List.mem_filterMap.mp hp
  by_cases hs : specKeep q.2.1 q.2.2 = true
  · rw [if_pos hs] at hF
    injection hF with hF
    refine ⟨q.2.2, ?_, ?_⟩
    · rw [← hF]
    · have h5 := ((specKeep_iff _ _).mp hs).2.2.2
      rw [← hF]
      exact h5
  · rw [if_neg hs] at hF
    cases hF

/-- When every collected content is nonempty, the section builder of
`json_to_sections` keeps one section per map entry. -/
theorem filterMap_sections_total :
    ∀ m : TMap, (∀ e ∈ m, pyStrip (pyJoin " " e.2) ≠ "") →
      (m.filterMap (fun e =>
        let c := pyStrip (pyJoin " " e.2)
        if c ≠ "" then some (⟨e.1, c⟩ : PageSection) else none))
      = m.map (fun e => (⟨e.1, pyStrip (pyJoin " " e.2)⟩ : PageSection)) := by
  intro m
  induction m with
  | nil => intro _; rfl
  | cons e rest ih =>
    intro h
    have he := h e (List.mem_cons_self _ _)
    simp only [List.filterMap_cons, List.map_cons]
    rw [if_pos he]
    rw [ih (fun x hx => h x (List.mem_cons_of_mem _ hx))]

/-- Claim C7, amended: the walk keeps a string value exactly when its
stripped form has at least five words, it does not start with
`http://` or `https://` (lowercased), and its originating key is
heading-like (`title`, `heading`, `name`), content-like
(`description`, `overview`, `summary`, `details`, `body`, `content`,
`text`, `objective`, `objectives`, `outcome`, `outcomes`,
`eligibility`, `syllabus` — the source set includes `overview`, which
the claim omitted), or absent or empty (Python falsy `last_key`).
Kept strings are grouped by key-path: the section headings are exactly
the kept key-paths in first-occurrence order (each path rooted at the
origin heading prefix), one section per path, and each section's
content is the space-join of the texts kept under its path. -/
theorem claim_C7 (o : PyJson) (pfx : String) :
    keptJ pfx o pfx none = (allStrJ o pfx none).filterMap (fun q =>
        if specKeep q.2.1 q.2.2 = true then
          some ((if q.1 ≠ "" then q.1 else pfx), pyStrip q.2.2) else none)
    ∧ (json_to_sections o pfx).map (fun sec => sec.heading)
        = firstOccurAux [] ((keptJ pfx o pfx none).map Prod.fst)
    ∧ ∀ sec ∈ json_to_sections o pfx,
        sec.content = pyStrip (pyJoin " " (textsFor (keptJ pfx o pfx none) sec.heading)) := by
  have hM : walkJ pfx o pfx none [] = groupAcc [] (keptJ pfx o pfx none) :=
    walkJ_eq pfx o pfx none []
  have hkeys : keysOf (groupAcc [] (keptJ pfx o pfx none))
      = firstOccurAux [] ((keptJ pfx o pfx none).map Prod.fst) := by
    have h := keysOf_groupAcc (keptJ pfx o pfx none) []
    simpa [keysOf] using h
  have hlook : ∀ k, lookupT (groupAcc [] (keptJ pfx o pfx none)) k
      = textsFor (keptJ pfx o pfx none) k := by
    intro k
    have h := lookupT_groupAcc (keptJ pfx o pfx none) [] k
    simpa [lookupT] using h
  have hnodup : (keysOf (groupAcc [] (keptJ pfx o pfx none))).Nodup := by
    rw [hkeys]
    exact (firstOccurAux_spec _ _).1
  have hentry : ∀ e ∈ groupAcc [] (keptJ pfx o pfx none),
      e.2 = textsFor (keptJ pfx o pfx none) e.1 := by
    intro e he
    rw [← hlook e.1]
    exact (entry_lookupT _ hnodup e he).symm
  have hkeymem : ∀ e ∈ groupAcc [] (keptJ pfx o pfx none),
      e.1 ∈ (keptJ pfx o pfx none).map Prod.fst := by
    intro e he
    have h1 : e.1 ∈ keysOf (groupAcc [] (keptJ pfx o pfx none)) :=
      List.mem_map_of_mem Prod.fst he
    rw [hkeys] at h1
    exact ((firstOccurAux_spec _ _).2 e.1 h1).2
  have hcontent : ∀ e ∈ groupAcc [] (keptJ pfx o pfx none),
      pyStrip (pyJoin " " e.2) ≠ "" := by
    intro e he
    rw [hentry e he]
    obtain ⟨p, hpk, hp1⟩ := List.mem_map.mp (hkeymem e he)
    have hpfilter : p ∈ (keptJ pfx o pfx none).filter (fun p2 => p2.1 == e.1) := by
      rw [List.mem_filter]
      exact ⟨hpk, by simp [hp1]⟩
    cases hT : textsFor (keptJ pfx o pfx none) e.1 with
    | nil =>
      exfalso
      have hmem : p.2 ∈ textsFor (keptJ pfx o pfx none) e.1 :=
        List.mem_map_of_mem Prod.snd hpfilter
      rw [hT] at hmem
      cases hmem
    | cons t0 trest =>
      have ht0 : t0 ∈ textsFor (keptJ pfx o pfx none) e.1 := by
        rw [hT]
        exact List.mem_cons_self _ _
      obtain ⟨p0, hp0f, hp02⟩ := List.mem_map.mp ht0
      have hp0k : p0 ∈ keptJ pfx o pfx none := (List.mem_filter.mp hp0f).1
      obtain ⟨s0, hs0, hw5⟩ := kp_elem_shape pfx o pfx none p0 hp0k
      have hne0 : pyStrip s0 ≠ "" := by
        intro hc
        rw [hc] at hs0
        rw [hs0] at hw5
        exact absurd hw5 (by decide)
      exact pyJoin_strip_ne (t0 :: trest) s0 trest
        (by rw [← hp02, hs0]) hne0
  have hsec : json_to_sections o pfx
      = (groupAcc [] (keptJ pfx o pfx none)).map
          (fun e => (⟨e.1, pyStrip (pyJoin " " e.2)⟩ : PageSection)) := by
    show (walkJ pfx o pfx none []).filterMap _ = _
    rw [hM]
    exact filterMap_sections_total _ hcontent
  refine ⟨keptJ_eq pfx o pfx none, ?_, ?_⟩
  · rw [hsec, List.map_map, ← hkeys]
    rfl
  · intro sec hsec2
    rw [hsec] at hsec2
    obtain ⟨e, he, hes⟩ := List.mem_map.mp hsec2
    rw [← hes]
    show pyStrip (pyJoin " " e.2) = pyStrip (pyJoin " " (textsFor _ e.1))
    rw [hentry e he]

/-- Witness for claim C7 at a concrete JSON document with one
content-like key. -/
theorem claim_C7_witness :
    (⟨"JSON-LD / description", "one two three four five"⟩ : PageSection)
      ∈ json_to_sections exJson "JSON-LD"
    ∧ (⟨"JSON-LD / description", "one two three four five"⟩ : PageSection).content
      = pyStrip (pyJoin " "
          (textsFor (keptJ "JSON-LD" exJson "JSON-LD" none) "JSON-LD / description")) :=
  ⟨by decide, (claim_C7 exJson "JSON-LD").2.2 _ (by decide)⟩

/-- Counterexample to claim C7 as stated: a five-word string under the
key `overview` is kept by the code (the source content-key set
includes `overview`), while the claim's key list excludes it and so
predicts the string is dropped. -/
theorem claim_C7_cex :
    specKeepClaim (some "overview") "alpha beta gamma delta epsilon" = false
    ∧ json_to_sections cexJson "JSON"
        = [⟨"JSON / overview", "alpha beta gamma delta epsilon"⟩] := by decide
